import Mathlib

/-
Verification of the decision-stump classifier
(IMLearn/learners/classifiers/decision_stump.py).

The embedding models numpy float arrays as lists of rationals, and the
threshold value (which may be ±infinity) as the inductive type `Thr`.
All definitions mirror the source code of `_find_threshold`, `_fit` and
`_predict`; the pipeline of `_find_threshold` is split into the staged
definitions `sortPairs`, `stNorm`, `stLosses`, `stValid`, `stAdj`,
`stIndex` so that theorems can speak about the intermediate arrays
(`loss`, `is_first_time`, the argmin index) of the source.
-/

namespace DecisionStump

/-- A threshold as returned by the code: minus infinity, a finite value,
or plus infinity (numpy -inf / finite float / inf). -/
inductive Thr where
  | negInf : Thr
  | val : ℚ → Thr
  | posInf : Thr
deriving DecidableEq, Repr

/-- Minimum of a list of rationals (np.min over a nonempty array;
the [] case is a junk default never used by the code paths). -/
def listMin : List ℚ → ℚ
  | [] => 0
  | [x] => x
  | x :: y :: rest => min x (listMin (y :: rest))

/-- Maximum of a list of rationals (np.max over a nonempty array). -/
def listMax : List ℚ → ℚ
  | [] => 0
  | [x] => x
  | x :: y :: rest => max x (listMax (y :: rest))

/-- Index of the first occurrence of the minimal element (np.argmin). -/
def argminIdx : List ℚ → ℕ
  | [] => 0
  | [_] => 0
  | x :: y :: rest => if x ≤ listMin (y :: rest) then 0 else argminIdx (y :: rest) + 1

/-- Tail of the `is_first_time` flags: entry i compares element i of the
argument list against its predecessor `prev`. -/
def validAux (prev : ℚ) : List ℚ → List Bool
  | [] => []
  | v :: rest => (if prev = v then false else true) :: validAux v rest

/-- The `is_first_time` flags of the source: index 0 is marked, and
index i > 0 is marked iff values[i-1] != values[i]. -/
def validFlags : List ℚ → List Bool
  | [] => []
  | v :: rest => true :: validAux v rest

/-- The accumulated loss array of the source:
loss[0] = a and loss[i] = loss[i-1] + labels[i-1] * sign (for sign s). -/
def lossList (s : ℚ) (a : ℚ) : List ℚ → List ℚ
  | [] => []
  | x :: rest => a :: lossList s (a + x * s) rest

/-- Sum of absolute values (np.sum(np.abs(labels))). -/
def sumAbs (l : List ℚ) : ℚ := (l.map (fun x => |x|)).sum

/-- The (value, label) pairs sorted by value ascending, as in
vl = np.c_[values, labels]; vl = vl[vl[:, 0].argsort()]. -/
def sortPairs (values labels : List ℚ) : List (ℚ × ℚ) :=
  List.insertionSort (fun a b => a.1 ≤ b.1) (values.zip labels)

/-- The sorted feature values. -/
def stVals (values labels : List ℚ) : List ℚ :=
  (sortPairs values labels).map Prod.fst

/-- The sorted raw labels. -/
def stRawLabels (values labels : List ℚ) : List ℚ :=
  (sortPairs values labels).map Prod.snd

/-- The sorted labels normalized by the total weight
(labels = labels / np.sum(np.abs(labels))). -/
def stNorm (values labels : List ℚ) : List ℚ :=
  (stRawLabels values labels).map (fun x => x / sumAbs (stRawLabels values labels))

/-- loss[0] = np.abs(np.sum(np.where(labels * sign < 0, labels, 0))). -/
def stLoss0 (values labels : List ℚ) (sign : ℚ) : ℚ :=
  |((stNorm values labels).map (fun x => if x * sign < 0 then x else 0)).sum|

/-- The full accumulated loss array of the sweep. -/
def stLosses (values labels : List ℚ) (sign : ℚ) : List ℚ :=
  lossList sign (stLoss0 values labels sign) (stNorm values labels)

/-- The is_first_time flags over the sorted values. -/
def stValid (values labels : List ℚ) : List Bool :=
  validFlags (stVals values labels)

/-- The sentinel maxi = np.max(loss) + 1. -/
def stMaxi (values labels : List ℚ) (sign : ℚ) : ℚ :=
  listMax (stLosses values labels sign) + 1

/-- The loss array after loss[is_first_time != 1] = maxi. -/
def stAdj (values labels : List ℚ) (sign : ℚ) : List ℚ :=
  List.zipWith (fun l v => if v then l else stMaxi values labels sign)
    (stLosses values labels sign) (stValid values labels)

/-- index = np.argmin(loss). -/
def stIndex (values labels : List ℚ) (sign : ℚ) : ℕ :=
  argminIdx (stAdj values labels sign)

/-- The `_find_threshold` method: returns the pair (thr, thr_err),
following the index-0 / last-index / interior branches of the source. -/
def findThreshold (values labels : List ℚ) (sign : ℚ) : Thr × ℚ :=
  let n := (stNorm values labels).length
  let idx := stIndex values labels sign
  let adj := stAdj values labels sign
  let vs := stVals values labels
  let ls := stNorm values labels
  if idx = 0 then (Thr.negInf, adj.getD 0 0)
  else if idx = n - 1 then
    (if sign = 1 then
      (if 0 < ls.getD idx 0 then (Thr.val (vs.getD idx 0), adj.getD idx 0)
       else (Thr.posInf, adj.getD idx 0 + ls.getD idx 0))
     else
      (if 0 < ls.getD idx 0 then (Thr.posInf, adj.getD idx 0 - ls.getD idx 0)
       else (Thr.val (vs.getD idx 0), adj.getD idx 0)))
  else (Thr.val (vs.getD idx 0), adj.getD idx 0)

/-- The weight a sample with (normalized) label x contributes to the error
when it is predicted as sign s. -/
def negPart (s x : ℚ) : ℚ := if x * s < 0 then |x| else 0

/-- The weight a sample with (normalized) label x contributes to the error
when it is predicted as -s. -/
def posPart (s x : ℚ) : ℚ := if 0 < x * s then |x| else 0

/-- Total error weight of a list of labels all predicted as sign s. -/
def sumNeg (s : ℚ) (l : List ℚ) : ℚ := (l.map (negPart s)).sum

/-- Modelled from the spec: the weighted misclassification fraction of the
k-th candidate cut over the sorted normalized labels — the first k samples
are predicted -s and the remaining ones s (cut 0 is threshold -infinity,
cut n is threshold +infinity). -/
def cutError (s : ℚ) : List ℚ → ℕ → ℚ
  | l, 0 => sumNeg s l
  | [], _ + 1 => 0
  | x :: rest, k + 1 => posPart s x + cutError s rest k

/-- Modelled from the spec: the errors of all n+1 candidate cuts. -/
def specCandErrs (values labels : List ℚ) (sign : ℚ) : List ℚ :=
  (List.range ((stNorm values labels).length + 1)).map
    (cutError sign (stNorm values labels))

/-- Modelled from the spec: the minimum weighted misclassification fraction
achievable over all n+1 candidate splits for the given sign. -/
def specMinCandErr (values labels : List ℚ) (sign : ℚ) : ℚ :=
  listMin (specCandErrs values labels sign)

/-- The running state of `_fit`:
(best_feature, best_threshold, best_loss, best_sign), where
best_threshold = none models the initial None and best_loss = none models
the initial np.inf. -/
structure FitState where
  f : ℕ
  t : Option Thr
  l : Option ℚ
  s : ℚ
deriving DecidableEq, Repr

/-- loss < best_loss, where none stands for the initial np.inf. -/
def ltOpt (x : ℚ) : Option ℚ → Bool
  | none => true
  | some b => if x < b then true else false

/-- One iteration of the `_fit` loop body on candidate (feature, column, sign). -/
def fitStep (y : List ℚ) (st : FitState) (c : ℕ × List ℚ × ℚ) : FitState :=
  if ltOpt (findThreshold c.2.1 y c.2.2).2 st.l then
    ⟨c.1, some (findThreshold c.2.1 y c.2.2).1, some (findThreshold c.2.1 y c.2.2).2, c.2.2⟩
  else st

/-- The candidates (i, column, sign) enumerated by `_fit`, feature index
ascending from i0 and, per feature, sign -1 before sign 1. -/
def allCands : ℕ → List (List ℚ) → List (ℕ × List ℚ × ℚ)
  | _, [] => []
  | i, c :: rest => (i, c, -1) :: (i, c, 1) :: allCands (i + 1) rest

/-- The `_fit` method over the list of feature columns: fold the loop body
over all candidates starting from
(best_feature, best_threshold, best_loss, best_sign) = (0, None, inf, 1). -/
def fitStump (cols : List (List ℚ)) (y : List ℚ) : FitState :=
  List.foldl (fitStep y) ⟨0, none, none, 1⟩ (allCands 0 cols)

/-- The comparison v >= thr of numpy, where thr may be ±infinity. -/
def thrGe (v : ℚ) : Thr → Bool
  | Thr.negInf => true
  | Thr.val t => if t ≤ v then true else false
  | Thr.posInf => false

/-- The elementwise rule of `_predict` on a list of rows:
np.where(X[:, j] >= threshold, sign, -sign). -/
def predictStump (rows : List (List ℚ)) (j : ℕ) (thr : Thr) (s : ℚ) : List ℚ :=
  rows.map (fun r => if thrGe (r.getD j 0) thr then s else -s)

/-- A numpy array of one or two dimensions. -/
inductive NDArray where
  | one : List ℚ → NDArray
  | two : List (List ℚ) → NDArray

/-- Models numpy column indexing X[:, j]: on a 1-D array it raises
IndexError (too many indices), modeled as none; on a 2-D array it yields
the j-th column when j is in range for every row. -/
def colIndex : NDArray → ℕ → Option (List ℚ)
  | NDArray.one _, _ => none
  | NDArray.two rows, j =>
      if ∀ r ∈ rows, j < r.length then some (rows.map (fun r => r.getD j 0))
      else none

/-- The `_predict` method: np.where(X[:, j] >= threshold, sign, -sign),
undefined (none) whenever the column indexing fails. -/
def predictN (X : NDArray) (j : ℕ) (thr : Thr) (s : ℚ) : Option (List ℚ) :=
  (colIndex X j).map (fun col => col.map (fun v => if thrGe v thr then s else -s))

/-- The columns X[:, 0], ..., X[:, shape1 - 1] of a 2-D array given by rows. -/
def matCols (rows : List (List ℚ)) : List (List ℚ) :=
  (List.range (rows.headD []).length).map (fun i => rows.map (fun r => r.getD i 0))

/-- The `_fit` shape dispatch: a 1-D array is treated as the single feature
column (feature index 0), a 2-D array is searched column by column. -/
def fitN (X : NDArray) (y : List ℚ) : FitState :=
  match X with
  | NDArray.one v => fitStump [v] y
  | NDArray.two rows => fitStump (matCols rows) y

/-- Comparison of best_loss values, where none stands for np.inf. -/
def optLE : Option ℚ → Option ℚ → Prop
  | _, none => True
  | none, some _ => False
  | some x, some y => x ≤ y

/-- The fit state records exactly the result of candidate c. -/
def StIs (y : List ℚ) (st : FitState) (c : ℕ × List ℚ × ℚ) : Prop :=
  st.f = c.1 ∧ st.s = c.2.2 ∧ st.t = some (findThreshold c.2.1 y c.2.2).1 ∧
    st.l = some (findThreshold c.2.1 y c.2.2).2

/-- Modelled from the spec: the weighted misclassification fraction of the
rule (value >= t predicts sign, else -sign) on the raw (value, label)
pairs, as a fraction of the total absolute label weight. -/
def threshErr (values labels : List ℚ) (sign : ℚ) (t : Thr) : ℚ :=
  ((values.zip labels).map (fun p =>
    if thrGe p.1 t then (if p.2 * sign < 0 then |p.2| else 0)
    else (if 0 < p.2 * sign then |p.2| else 0))).sum / sumAbs labels

lemma getD_mem : ∀ (l : List ℚ) (k : ℕ), k < l.length → l.getD k 0 ∈ l := by
  intro l
  induction l with
  | nil => intro k h; simp at h
  | cons x xs ih =>
    intro k h
    cases k with
    | zero => simp
    | succ k =>
      have hk : k < xs.length := by simpa using h
      simpa using Or.inr (ih k hk)

lemma getD_map {α β : Type} (f : α → β) (d : α) (e : β) :
    ∀ (l : List α) (k : ℕ), k < l.length → (l.map f).getD k e = f (l.getD k d) := by
  intro l
  induction l with
  | nil => intro k h; simp at h
  | cons x xs ih =>
    intro k h
    cases k with
    | zero => simp
    | succ k =>
      have hk : k < xs.length := by simpa using h
      simpa using ih k hk

lemma listMin_le_getD : ∀ (l : List ℚ) (k : ℕ), k < l.length → listMin l ≤ l.getD k 0 := by
  intro l
  induction l with
  | nil => intro k h; simp at h
  | cons x xs ih =>
    intro k h
    cases xs with
    | nil =>
      have : k = 0 := by simpa using Nat.lt_one_iff.mp (by simpa using h)
      subst this
      simp [listMin]
    | cons y rest =>
      cases k with
      | zero => simp [listMin]
      | succ k =>
        have hk : k < (y :: rest).length := by simpa using h
        calc listMin (x :: y :: rest) ≤ listMin (y :: rest) := by
              simp [listMin]
          _ ≤ (y :: rest).getD k 0 := ih k hk
          _ = (x :: y :: rest).getD (k + 1) 0 := by simp

lemma getD_le_listMax : ∀ (l : List ℚ) (k : ℕ), k < l.length → l.getD k 0 ≤ listMax l := by
  intro l
  induction l with
  | nil => intro k h; simp at h
  | cons x xs ih =>
    intro k h
    cases xs with
    | nil =>
      have : k = 0 := by simpa using Nat.lt_one_iff.mp (by simpa using h)
      subst this
      simp [listMax]
    | cons y rest =>
      cases k with
      | zero => simp [listMax]
      | succ k =>
        have hk : k < (y :: rest).length := by simpa using h
        calc (x :: y :: rest).getD (k + 1) 0 = (y :: rest).getD k 0 := by simp
          _ ≤ listMax (y :: rest) := ih k hk
          _ ≤ listMax (x :: y :: rest) := by simp [listMax]

lemma argminIdx_lt_length : ∀ (l : List ℚ), l ≠ [] → argminIdx l < l.length := by
  intro l
  induction l with
  | nil => intro h; exact absurd rfl h
  | cons x xs ih =>
    intro _
    cases xs with
    | nil => simp [argminIdx]
    | cons y rest =>
      by_cases hx : x ≤ listMin (y :: rest)
      · simp [argminIdx, hx]
      · have := ih (List.cons_ne_nil y rest)
        simp only [argminIdx, if_neg hx]
        simpa using Nat.succ_lt_succ this

lemma getD_argminIdx : ∀ (l : List ℚ), l ≠ [] → l.getD (argminIdx l) 0 = listMin l := by
  intro l
  induction l with
  | nil => intro h; exact absurd rfl h
  | cons x xs ih =>
    intro _
    cases xs with
    | nil => simp [argminIdx, listMin]
    | cons y rest =>
      by_cases hx : x ≤ listMin (y :: rest)
      · simp [argminIdx, hx, listMin, min_eq_left hx]
      · have hle : listMin (y :: rest) ≤ x := le_of_not_le hx
        have h2 := ih (List.cons_ne_nil y rest)
        have hstep : argminIdx (x :: y :: rest) = argminIdx (y :: rest) + 1 := by
          simp [argminIdx, hx]
        rw [hstep, List.getD_cons_succ, h2]
        show listMin (y :: rest) = min x (listMin (y :: rest))
        rw [min_eq_right hle]

lemma getD_zipIf :
    ∀ (l1 : List ℚ) (l2 : List Bool) (m : ℚ) (k : ℕ), k < l1.length → k < l2.length →
      (List.zipWith (fun a b => if b then a else m) l1 l2).getD k 0 =
        if l2.getD k false then l1.getD k 0 else m := by
  intro l1
  induction l1 with
  | nil => intro l2 m k h1 h2; simp at h1
  | cons x xs ih =>
    intro l2 m k h1 h2
    cases l2 with
    | nil => simp at h2
    | cons b bs =>
      cases k with
      | zero => simp
      | succ k =>
        have hk1 : k < xs.length := by simpa using h1
        have hk2 : k < bs.length := by simpa using h2
        simpa using ih bs m k hk1 hk2

lemma validAux_getD :
    ∀ (rest : List ℚ) (prev : ℚ) (k : ℕ), k < rest.length →
      ((validAux prev rest).getD k false = true ↔
        (prev :: rest).getD k 0 ≠ rest.getD k 0) := by
  intro rest
  induction rest with
  | nil => intro prev k h; simp at h
  | cons v rest2 ih =>
    intro prev k h
    cases k with
    | zero =>
      by_cases hv : prev = v
      · simp [validAux, hv]
      · simp [validAux, hv]
    | succ k =>
      have hk : k < rest2.length := by simpa using h
      simpa [validAux] using ih v k hk

lemma length_validAux : ∀ (rest : List ℚ) (prev : ℚ), (validAux prev rest).length = rest.length := by
  intro rest
  induction rest with
  | nil => intro prev; rfl
  | cons v rest2 ih => intro prev; simp [validAux, ih]

lemma length_validFlags (l : List ℚ) : (validFlags l).length = l.length := by
  cases l with
  | nil => rfl
  | cons v rest => simp [validFlags, length_validAux]

lemma length_lossList (s : ℚ) : ∀ (l : List ℚ) (a : ℚ), (lossList s a l).length = l.length := by
  intro l
  induction l with
  | nil => intro a; rfl
  | cons x rest ih => intro a; simp [lossList, ih]

lemma length_sortPairs (values labels : List ℚ) :
    (sortPairs values labels).length = min values.length labels.length := by
  simp [sortPairs, List.length_insertionSort]

lemma length_stVals (values labels : List ℚ) :
    (stVals values labels).length = (sortPairs values labels).length := by
  simp [stVals]

lemma length_stNorm (values labels : List ℚ) :
    (stNorm values labels).length = (sortPairs values labels).length := by
  simp [stNorm, stRawLabels]

lemma length_stLosses (values labels : List ℚ) (sign : ℚ) :
    (stLosses values labels sign).length = (stNorm values labels).length := by
  simp [stLosses, length_lossList]

lemma length_stValid (values labels : List ℚ) :
    (stValid values labels).length = (stNorm values labels).length := by
  simp [stValid, length_validFlags, length_stVals, length_stNorm]

lemma length_stAdj (values labels : List ℚ) (sign : ℚ) :
    (stAdj values labels sign).length = (stNorm values labels).length := by
  simp [stAdj, List.length_zipWith, length_stLosses, length_stValid]

lemma negPart_nonneg (s x : ℚ) : 0 ≤ negPart s x := by
  unfold negPart; split_ifs
  · exact abs_nonneg x
  · exact le_refl 0

lemma posPart_nonneg (s x : ℚ) : 0 ≤ posPart s x := by
  unfold posPart; split_ifs
  · exact abs_nonneg x
  · exact le_refl 0

lemma negPart_le_abs (s x : ℚ) : negPart s x ≤ |x| := by
  unfold negPart; split_ifs
  · exact le_refl _
  · exact abs_nonneg x

lemma posPart_le_abs (s x : ℚ) : posPart s x ≤ |x| := by
  unfold posPart; split_ifs
  · exact le_refl _
  · exact abs_nonneg x

lemma posPart_sub_negPart (s : ℚ) (hs : s = 1 ∨ s = -1) (x : ℚ) :
    posPart s x - negPart s x = x * s := by
  have habs : |x * s| = |x| := by
    rcases hs with h | h <;> subst h <;> simp
  unfold posPart negPart
  rcases lt_trichotomy (x * s) 0 with h | h | h
  · rw [if_neg (by linarith), if_pos h]
    have := abs_of_neg h
    linarith [habs ▸ this]
  · have hx : |x| = 0 := by rw [← habs, h, abs_zero]
    rw [if_neg (by linarith), if_neg (by linarith), h]
    ring
  · rw [if_pos h, if_neg (by linarith)]
    have := abs_of_pos h
    linarith [habs ▸ this]

lemma sumNeg_nil (s : ℚ) : sumNeg s [] = 0 := rfl

lemma sumNeg_cons (s x : ℚ) (l : List ℚ) : sumNeg s (x :: l) = negPart s x + sumNeg s l := by
  simp [sumNeg]

lemma sumNeg_nonneg (s : ℚ) : ∀ (l : List ℚ), 0 ≤ sumNeg s l := by
  intro l
  induction l with
  | nil => simp [sumNeg_nil]
  | cons x rest ih =>
    rw [sumNeg_cons]
    have := negPart_nonneg s x
    linarith

lemma sumAbs_nil : sumAbs [] = 0 := rfl

lemma sumAbs_cons (x : ℚ) (l : List ℚ) : sumAbs (x :: l) = |x| + sumAbs l := by
  simp [sumAbs]

lemma sumAbs_nonneg : ∀ (l : List ℚ), 0 ≤ sumAbs l := by
  intro l
  induction l with
  | nil => simp [sumAbs_nil]
  | cons x rest ih =>
    rw [sumAbs_cons]
    have := abs_nonneg x
    linarith

lemma sumNeg_le_sumAbs (s : ℚ) : ∀ (l : List ℚ), sumNeg s l ≤ sumAbs l := by
  intro l
  induction l with
  | nil => rw [sumNeg_nil, sumAbs_nil]
  | cons x rest ih =>
    rw [sumNeg_cons, sumAbs_cons]
    have := negPart_le_abs s x
    linarith

lemma cutError_zero (s : ℚ) (l : List ℚ) : cutError s l 0 = sumNeg s l := by
  cases l <;> rfl

lemma cutError_nonneg (s : ℚ) : ∀ (l : List ℚ) (k : ℕ), 0 ≤ cutError s l k := by
  intro l
  induction l with
  | nil =>
    intro k
    cases k with
    | zero => rw [cutError_zero, sumNeg_nil]
    | succ k => exact le_refl 0
  | cons x rest ih =>
    intro k
    cases k with
    | zero => rw [cutError_zero]; exact sumNeg_nonneg s _
    | succ k =>
      have h1 := posPart_nonneg s x
      have h2 := ih k
      show 0 ≤ posPart s x + cutError s rest k
      linarith

lemma cutError_le_sumAbs (s : ℚ) : ∀ (l : List ℚ) (k : ℕ), cutError s l k ≤ sumAbs l := by
  intro l
  induction l with
  | nil =>
    intro k
    cases k with
    | zero => rw [cutError_zero, sumNeg_nil, sumAbs_nil]
    | succ k => rw [sumAbs_nil]; exact le_refl 0
  | cons x rest ih =>
    intro k
    cases k with
    | zero => rw [cutError_zero]; exact sumNeg_le_sumAbs s _
    | succ k =>
      have h1 := posPart_le_abs s x
      have h2 := ih k
      rw [sumAbs_cons]
      show posPart s x + cutError s rest k ≤ |x| + sumAbs rest
      linarith

lemma cutError_succ (s : ℚ) (hs : s = 1 ∨ s = -1) :
    ∀ (l : List ℚ) (k : ℕ), k < l.length →
      cutError s l (k + 1) = cutError s l k + (l.getD k 0) * s := by
  intro l
  induction l with
  | nil => intro k h; simp at h
  | cons x rest ih =>
    intro k h
    cases k with
    | zero =>
      show posPart s x + cutError s rest 0 = cutError s (x :: rest) 0 + (x :: rest).getD 0 0 * s
      rw [cutError_zero, cutError_zero, sumNeg_cons]
      have := posPart_sub_negPart s hs x
      simp only [List.getD_cons_zero]
      linarith
    | succ k =>
      have hk : k < rest.length := by simpa using h
      show posPart s x + cutError s rest (k + 1) =
        (posPart s x + cutError s rest k) + (x :: rest).getD (k + 1) 0 * s
      rw [ih k hk]
      simp only [List.getD_cons_succ]
      ring

lemma lossList_getD (s : ℚ) (hs : s = 1 ∨ s = -1) :
    ∀ (l : List ℚ) (a : ℚ) (k : ℕ), k < l.length →
      (lossList s a l).getD k 0 = a - sumNeg s l + cutError s l k := by
  intro l
  induction l with
  | nil => intro a k h; simp at h
  | cons x rest ih =>
    intro a k h
    cases k with
    | zero =>
      show a = a - sumNeg s (x :: rest) + cutError s (x :: rest) 0
      rw [cutError_zero]
      ring
    | succ k =>
      have hk : k < rest.length := by simpa using h
      show (lossList s (a + x * s) rest).getD k 0 =
        a - sumNeg s (x :: rest) + cutError s (x :: rest) (k + 1)
      rw [ih (a + x * s) k hk, sumNeg_cons]
      show a + x * s - sumNeg s rest + cutError s rest k =
        a - (negPart s x + sumNeg s rest) + (posPart s x + cutError s rest k)
      have := posPart_sub_negPart s hs x
      linarith

lemma stLoss0_eq_sumNeg (values labels : List ℚ) (s : ℚ) (hs : s = 1 ∨ s = -1) :
    stLoss0 values labels s = sumNeg s (stNorm values labels) := by
  unfold stLoss0
  have key : ∀ (l : List ℚ),
      (l.map (fun x => if x * s < 0 then x else 0)).sum = -(s * sumNeg s l) := by
    intro l
    induction l with
    | nil => simp [sumNeg_nil]
    | cons x rest ih =>
      rw [List.map_cons, List.sum_cons, ih, sumNeg_cons]
      have hx : (if x * s < 0 then x else 0) = -(s * negPart s x) := by
        unfold negPart
        split_ifs with h
        · rcases hs with h1 | h1 <;> subst h1
          · have : x < 0 := by linarith [h]
            rw [abs_of_neg this]; ring
          · have : 0 < x := by nlinarith [h]
            rw [abs_of_pos this]; ring
        · ring
      rw [hx]; ring
  rw [key]
  have h1 : |(-(s * sumNeg s (stNorm values labels)))| = |s| * sumNeg s (stNorm values labels) := by
    rw [abs_neg, abs_mul, abs_of_nonneg (sumNeg_nonneg s _)]
  rw [h1]
  rcases hs with h | h <;> subst h <;> simp

lemma sumAbs_map_div (S : ℚ) (hS : 0 < S) :
    ∀ (l : List ℚ), sumAbs (l.map (fun x => x / S)) = sumAbs l / S := by
  intro l
  induction l with
  | nil => simp [sumAbs_nil]
  | cons x rest ih =>
    rw [List.map_cons, sumAbs_cons, sumAbs_cons, ih, abs_div, abs_of_pos hS, add_div]

lemma sortPairs_perm (values labels : List ℚ) :
    (sortPairs values labels).Perm (values.zip labels) :=
  List.perm_insertionSort _ _

lemma sumAbs_perm {l1 l2 : List ℚ} (h : l1.Perm l2) : sumAbs l1 = sumAbs l2 := by
  unfold sumAbs
  exact (h.map _).sum_eq

lemma sumAbs_stRawLabels (values labels : List ℚ) (hlen : values.length = labels.length) :
    sumAbs (stRawLabels values labels) = sumAbs labels := by
  unfold stRawLabels
  rw [sumAbs_perm ((sortPairs_perm values labels).map Prod.snd),
    List.map_snd_zip values labels (le_of_eq hlen.symm)]

lemma sumAbs_stNorm (values labels : List ℚ) (hlen : values.length = labels.length)
    (hS : 0 < sumAbs labels) : sumAbs (stNorm values labels) = 1 := by
  have hS2 : 0 < sumAbs (stRawLabels values labels) := by
    rw [sumAbs_stRawLabels values labels hlen]; exact hS
  unfold stNorm
  rw [sumAbs_map_div _ hS2, div_self (ne_of_gt hS2)]

lemma validFlags_getD_zero (l : List ℚ) (h : l ≠ []) :
    (validFlags l).getD 0 false = true := by
  cases l with
  | nil => exact absurd rfl h
  | cons v rest => rfl

lemma stIndex_lt (values labels : List ℚ) (s : ℚ)
    (hn : 0 < (stNorm values labels).length) :
    stIndex values labels s < (stNorm values labels).length := by
  have hne : stAdj values labels s ≠ [] := by
    apply List.ne_nil_of_length_pos
    rw [length_stAdj]; exact hn
  have h := argminIdx_lt_length _ hne
  rw [length_stAdj] at h
  exact h

lemma stAdj_getD (values labels : List ℚ) (s : ℚ) (k : ℕ)
    (hk : k < (stNorm values labels).length) :
    (stAdj values labels s).getD k 0 =
      if (stValid values labels).getD k false then (stLosses values labels s).getD k 0
      else stMaxi values labels s := by
  unfold stAdj
  exact getD_zipIf _ _ _ k (by rw [length_stLosses]; exact hk) (by rw [length_stValid]; exact hk)

lemma stValid_argmin (values labels : List ℚ) (s : ℚ)
    (hn : 0 < (stNorm values labels).length) :
    (stValid values labels).getD (stIndex values labels s) false = true := by
  have hidx := stIndex_lt values labels s hn
  have hne : stAdj values labels s ≠ [] := by
    apply List.ne_nil_of_length_pos
    rw [length_stAdj]; exact hn
  have hmin : (stAdj values labels s).getD (stIndex values labels s) 0 =
      listMin (stAdj values labels s) := getD_argminIdx _ hne
  have h0 : listMin (stAdj values labels s) ≤ (stAdj values labels s).getD 0 0 :=
    listMin_le_getD _ 0 (by rw [length_stAdj]; exact hn)
  have hv0 : (stValid values labels).getD 0 false = true := by
    apply validFlags_getD_zero
    apply List.ne_nil_of_length_pos
    rw [length_stVals, ← length_stNorm]
    exact hn
  have hadj0 : (stAdj values labels s).getD 0 0 = (stLosses values labels s).getD 0 0 := by
    rw [stAdj_getD values labels s 0 hn, hv0]
    simp
  have hlossmax : (stLosses values labels s).getD 0 0 ≤ listMax (stLosses values labels s) :=
    getD_le_listMax _ 0 (by rw [length_stLosses]; exact hn)
  cases hb : (stValid values labels).getD (stIndex values labels s) false with
  | true => rfl
  | false =>
    exfalso
    have hsent : (stAdj values labels s).getD (stIndex values labels s) 0 =
        stMaxi values labels s := by
      rw [stAdj_getD values labels s _ hidx, hb]
      simp
    have : stMaxi values labels s ≤ listMax (stLosses values labels s) := by
      calc stMaxi values labels s = listMin (stAdj values labels s) := by rw [← hsent, hmin]
        _ ≤ (stAdj values labels s).getD 0 0 := h0
        _ = (stLosses values labels s).getD 0 0 := hadj0
        _ ≤ listMax (stLosses values labels s) := hlossmax
    unfold stMaxi at this
    linarith

lemma stLosses_getD_eq_cutError (values labels : List ℚ) (s : ℚ) (hs : s = 1 ∨ s = -1)
    (k : ℕ) (hk : k < (stNorm values labels).length) :
    (stLosses values labels s).getD k 0 = cutError s (stNorm values labels) k := by
  unfold stLosses
  rw [lossList_getD s hs _ _ k hk, stLoss0_eq_sumNeg values labels s hs]
  ring

lemma stAdj_getD_argmin (values labels : List ℚ) (s : ℚ) (hs : s = 1 ∨ s = -1)
    (hn : 0 < (stNorm values labels).length) :
    (stAdj values labels s).getD (stIndex values labels s) 0 =
      cutError s (stNorm values labels) (stIndex values labels s) := by
  rw [stAdj_getD values labels s _ (stIndex_lt values labels s hn),
    stValid_argmin values labels s hn]
  simp only [if_true]
  exact stLosses_getD_eq_cutError values labels s hs _ (stIndex_lt values labels s hn)

lemma stNorm_length_pos (values labels : List ℚ)
    (hlen : values.length = labels.length) (hne : labels ≠ []) :
    0 < (stNorm values labels).length := by
  rw [length_stNorm, length_sortPairs, hlen, min_self]
  exact List.length_pos.mpr hne

/-- C5: for every valid input (equal lengths, n >= 1, positive total absolute
label weight) and sign in {-1, +1}, the error returned by _find_threshold
lies in [0, 1]. -/
theorem findThreshold_err_unit (values labels : List ℚ) (sign : ℚ)
    (hlen : values.length = labels.length) (hne : labels ≠ [])
    (hS : 0 < sumAbs labels) (hs : sign = 1 ∨ sign = -1) :
    0 ≤ (findThreshold values labels sign).2 ∧ (findThreshold values labels sign).2 ≤ 1 := by
  have hn : 0 < (stNorm values labels).length := stNorm_length_pos values labels hlen hne
  have hidx := stIndex_lt values labels sign hn
  have hadj := stAdj_getD_argmin values labels sign hs hn
  have hb : ∀ k : ℕ, 0 ≤ cutError sign (stNorm values labels) k ∧
      cutError sign (stNorm values labels) k ≤ 1 := by
    intro k
    refine ⟨cutError_nonneg sign _ k, ?_⟩
    calc cutError sign (stNorm values labels) k ≤ sumAbs (stNorm values labels) :=
          cutError_le_sumAbs sign _ k
      _ = 1 := sumAbs_stNorm values labels hlen hS
  have hsucc : cutError sign (stNorm values labels) (stIndex values labels sign + 1) =
      cutError sign (stNorm values labels) (stIndex values labels sign) +
        (stNorm values labels).getD (stIndex values labels sign) 0 * sign :=
    cutError_succ sign hs _ _ hidx
  by_cases h1 : stIndex values labels sign = 0
  · have hft : (findThreshold values labels sign).2 = (stAdj values labels sign).getD 0 0 := by
      simp [findThreshold, h1]
    rw [h1] at hadj
    rw [hft, hadj]
    exact hb 0
  · by_cases h2 : stIndex values labels sign = (stNorm values labels).length - 1
    · rcases hs with hsgn | hsgn <;> subst hsgn
      · by_cases h3 : 0 < (stNorm values labels).getD (stIndex values labels 1) 0
        · have h3n := h3
          rw [List.getD_eq_getElem?_getD] at h3n
          have hft : (findThreshold values labels 1).2 =
              (stAdj values labels 1).getD (stIndex values labels 1) 0 := by
            simp [findThreshold, h1, eq_true h2, h3n]
          rw [hft, hadj]
          exact hb _
        · have h3n := h3
          rw [List.getD_eq_getElem?_getD] at h3n
          have hft : (findThreshold values labels 1).2 =
              (stAdj values labels 1).getD (stIndex values labels 1) 0 +
                (stNorm values labels).getD (stIndex values labels 1) 0 := by
            simp [findThreshold, h1, eq_true h2, h3n]
          rw [hft, hadj]
          have heq : cutError 1 (stNorm values labels) (stIndex values labels 1) +
              (stNorm values labels).getD (stIndex values labels 1) 0 =
              cutError 1 (stNorm values labels) (stIndex values labels 1 + 1) := by
            rw [hsucc]; ring
          rw [heq]
          exact hb _
      · have hm1 : ¬((-1 : ℚ) = 1) := by norm_num
        by_cases h3 : 0 < (stNorm values labels).getD (stIndex values labels (-1)) 0
        · have h3n := h3
          rw [List.getD_eq_getElem?_getD] at h3n
          have hft : (findThreshold values labels (-1)).2 =
              (stAdj values labels (-1)).getD (stIndex values labels (-1)) 0 -
                (stNorm values labels).getD (stIndex values labels (-1)) 0 := by
            simp [findThreshold, h1, eq_true h2, hm1, h3n]
          rw [hft, hadj]
          have heq : cutError (-1) (stNorm values labels) (stIndex values labels (-1)) -
              (stNorm values labels).getD (stIndex values labels (-1)) 0 =
              cutError (-1) (stNorm values labels) (stIndex values labels (-1) + 1) := by
            rw [hsucc]; ring
          rw [heq]
          exact hb _
        · have h3n := h3
          rw [List.getD_eq_getElem?_getD] at h3n
          have hft : (findThreshold values labels (-1)).2 =
              (stAdj values labels (-1)).getD (stIndex values labels (-1)) 0 := by
            simp [findThreshold, h1, eq_true h2, hm1, h3n]
          rw [hft, hadj]
          exact hb _
    · have hft : (findThreshold values labels sign).2 =
          (stAdj values labels sign).getD (stIndex values labels sign) 0 := by
        simp [findThreshold, h1, h2]
      rw [hft, hadj]
      exact hb _

theorem findThreshold_err_unit_witness :
    ([1, 2] : List ℚ).length = ([-1, 1] : List ℚ).length ∧ ([-1, 1] : List ℚ) ≠ [] ∧
      0 < sumAbs [-1, 1] ∧ ((1 : ℚ) = 1 ∨ (1 : ℚ) = -1) ∧
      (0 ≤ (findThreshold [1, 2] [-1, 1] 1).2 ∧ (findThreshold [1, 2] [-1, 1] 1).2 ≤ 1) :=
  ⟨rfl, by simp, by norm_num [sumAbs], Or.inl rfl,
    findThreshold_err_unit [1, 2] [-1, 1] 1 rfl (by simp) (by norm_num [sumAbs]) (Or.inl rfl)⟩

/-- C6: for every valid input, the argmin index of the sweep is in range and
is never a mid-run tie position: it is 0, or its sorted value differs from
the previous sorted value. -/
theorem argmin_not_mid_tie (values labels : List ℚ) (sign : ℚ)
    (hlen : values.length = labels.length) (hne : labels ≠ [])
    (_hS : 0 < sumAbs labels) (_hs : sign = 1 ∨ sign = -1) :
    stIndex values labels sign < (stNorm values labels).length ∧
      (stIndex values labels sign = 0 ∨
        (stVals values labels).getD (stIndex values labels sign - 1) 0 ≠
          (stVals values labels).getD (stIndex values labels sign) 0) := by
  have hn : 0 < (stNorm values labels).length := stNorm_length_pos values labels hlen hne
  refine ⟨stIndex_lt values labels sign hn, ?_⟩
  by_cases h0 : stIndex values labels sign = 0
  · exact Or.inl h0
  · right
    obtain ⟨k, hk⟩ : ∃ k, stIndex values labels sign = k + 1 :=
      ⟨stIndex values labels sign - 1, (Nat.succ_pred_eq_of_pos (Nat.pos_of_ne_zero h0)).symm⟩
    have hvalid := stValid_argmin values labels sign hn
    have hidx := stIndex_lt values labels sign hn
    rw [hk] at hvalid hidx ⊢
    have hlenv : (stVals values labels).length = (stNorm values labels).length := by
      rw [length_stVals, length_stNorm]
    cases hvs : stVals values labels with
    | nil =>
      rw [hvs] at hlenv
      simp at hlenv
      omega
    | cons v0 rest =>
      unfold stValid at hvalid
      rw [hvs] at hvalid
      have hflag : (validAux v0 rest).getD k false = true := by
        simpa [validFlags] using hvalid
      have hkr : k < rest.length := by
        have : (v0 :: rest).length = (stNorm values labels).length := by rw [← hvs, hlenv]
        simp at this
        omega
      have hne2 := (validAux_getD rest v0 k hkr).mp hflag
      simpa using hne2

theorem argmin_not_mid_tie_witness :
    ([1, 2, 2] : List ℚ).length = ([1, -1, 1] : List ℚ).length ∧
      ([1, -1, 1] : List ℚ) ≠ [] ∧ 0 < sumAbs [1, -1, 1] ∧ ((1 : ℚ) = 1 ∨ (1 : ℚ) = -1) ∧
      (stIndex [1, 2, 2] [1, -1, 1] 1 < (stNorm [1, 2, 2] [1, -1, 1]).length ∧
        (stIndex [1, 2, 2] [1, -1, 1] 1 = 0 ∨
          (stVals [1, 2, 2] [1, -1, 1]).getD (stIndex [1, 2, 2] [1, -1, 1] 1 - 1) 0 ≠
            (stVals [1, 2, 2] [1, -1, 1]).getD (stIndex [1, 2, 2] [1, -1, 1] 1) 0)) :=
  ⟨rfl, by simp, by norm_num [sumAbs], Or.inl rfl,
    argmin_not_mid_tie [1, 2, 2] [1, -1, 1] 1 rfl (by simp) (by norm_num [sumAbs]) (Or.inl rfl)⟩

/-- C2: when the minimizing index of the sweep is the last position n-1 (with
n >= 2), sign = +1 with positive last sorted normalized label returns
(last value, accumulated error unchanged); sign = +1 with negative last
label returns (+infinity, error plus the last normalized label); sign = -1
is handled symmetrically with the sign flipped. -/
theorem last_index_boundary (values labels : List ℚ) (sign : ℚ)
    (h2 : 2 ≤ (stNorm values labels).length)
    (hidx : stIndex values labels sign = (stNorm values labels).length - 1) :
    (sign = 1 → 0 < (stNorm values labels).getD ((stNorm values labels).length - 1) 0 →
      findThreshold values labels sign =
        (Thr.val ((stVals values labels).getD ((stNorm values labels).length - 1) 0),
          (stLosses values labels sign).getD ((stNorm values labels).length - 1) 0)) ∧
    (sign = 1 → (stNorm values labels).getD ((stNorm values labels).length - 1) 0 < 0 →
      findThreshold values labels sign =
        (Thr.posInf,
          (stLosses values labels sign).getD ((stNorm values labels).length - 1) 0 +
            (stNorm values labels).getD ((stNorm values labels).length - 1) 0)) ∧
    (sign = -1 → 0 < (stNorm values labels).getD ((stNorm values labels).length - 1) 0 →
      findThreshold values labels sign =
        (Thr.posInf,
          (stLosses values labels sign).getD ((stNorm values labels).length - 1) 0 -
            (stNorm values labels).getD ((stNorm values labels).length - 1) 0)) ∧
    (sign = -1 → (stNorm values labels).getD ((stNorm values labels).length - 1) 0 < 0 →
      findThreshold values labels sign =
        (Thr.val ((stVals values labels).getD ((stNorm values labels).length - 1) 0),
          (stLosses values labels sign).getD ((stNorm values labels).length - 1) 0)) := by
  have hn : 0 < (stNorm values labels).length := by omega
  have h1 : ¬stIndex values labels sign = 0 := by rw [hidx]; omega
  have hadj : (stAdj values labels sign).getD (stIndex values labels sign) 0 =
      (stLosses values labels sign).getD (stIndex values labels sign) 0 := by
    rw [stAdj_getD values labels sign _ (stIndex_lt values labels sign hn),
      stValid_argmin values labels sign hn]
    simp
  refine ⟨?_, ?_, ?_, ?_⟩
  · intro hsgn h3
    subst hsgn
    have h3i : 0 < (stNorm values labels).getD (stIndex values labels 1) 0 := by
      rw [hidx]; exact h3
    rw [List.getD_eq_getElem?_getD] at h3i
    have hft : findThreshold values labels 1 =
        (Thr.val ((stVals values labels).getD (stIndex values labels 1) 0),
          (stAdj values labels 1).getD (stIndex values labels 1) 0) := by
      simp [findThreshold, h1, eq_true hidx, h3i]
    rw [hft, hadj, hidx]
  · intro hsgn h3
    subst hsgn
    have h3i : ¬(0 < (stNorm values labels).getD (stIndex values labels 1) 0) := by
      rw [hidx]; linarith
    rw [List.getD_eq_getElem?_getD] at h3i
    have hft : findThreshold values labels 1 =
        (Thr.posInf,
          (stAdj values labels 1).getD (stIndex values labels 1) 0 +
            (stNorm values labels).getD (stIndex values labels 1) 0) := by
      simp [findThreshold, h1, eq_true hidx, h3i]
    rw [hft, hadj, hidx]
  · intro hsgn h3
    subst hsgn
    have hm1 : ¬((-1 : ℚ) = 1) := by norm_num
    have h3i : 0 < (stNorm values labels).getD (stIndex values labels (-1)) 0 := by
      rw [hidx]; exact h3
    rw [List.getD_eq_getElem?_getD] at h3i
    have hft : findThreshold values labels (-1) =
        (Thr.posInf,
          (stAdj values labels (-1)).getD (stIndex values labels (-1)) 0 -
            (stNorm values labels).getD (stIndex values labels (-1)) 0) := by
      simp [findThreshold, h1, eq_true hidx, hm1, h3i]
    rw [hft, hadj, hidx]
  · intro hsgn h3
    subst hsgn
    have hm1 : ¬((-1 : ℚ) = 1) := by norm_num
    have h3i : ¬(0 < (stNorm values labels).getD (stIndex values labels (-1)) 0) := by
      rw [hidx]; linarith
    rw [List.getD_eq_getElem?_getD] at h3i
    have hft : findThreshold values labels (-1) =
        (Thr.val ((stVals values labels).getD (stIndex values labels (-1)) 0),
          (stAdj values labels (-1)).getD (stIndex values labels (-1)) 0) := by
      simp [findThreshold, h1, eq_true hidx, hm1, h3i]
    rw [hft, hadj, hidx]

theorem last_index_boundary_witness :
    2 ≤ (stNorm [1, 2] [-1, 1]).length ∧
      stIndex [1, 2] [-1, 1] 1 = (stNorm [1, 2] [-1, 1]).length - 1 ∧
      ((1 : ℚ) = 1 → 0 < (stNorm [1, 2] [-1, 1]).getD ((stNorm [1, 2] [-1, 1]).length - 1) 0 →
        findThreshold [1, 2] [-1, 1] 1 =
          (Thr.val ((stVals [1, 2] [-1, 1]).getD ((stNorm [1, 2] [-1, 1]).length - 1) 0),
            (stLosses [1, 2] [-1, 1] 1).getD ((stNorm [1, 2] [-1, 1]).length - 1) 0)) := by
  have hlen : 2 ≤ (stNorm [1, 2] [-1, 1]).length := by
    norm_num [stNorm, stRawLabels, sortPairs, List.insertionSort, List.orderedInsert]
  have hidx : stIndex [1, 2] [-1, 1] 1 = (stNorm [1, 2] [-1, 1]).length - 1 := by
    norm_num [stIndex, stAdj, stLosses, stLoss0, stMaxi, stValid, stNorm, stRawLabels,
      stVals, sortPairs, List.insertionSort, List.orderedInsert, validFlags, validAux,
      lossList, sumAbs, listMin, listMax, argminIdx, abs_of_nonneg, abs_of_nonpos]
  exact ⟨hlen, hidx, (last_index_boundary [1, 2] [-1, 1] 1 hlen hidx).1⟩

lemma optLE_refl : ∀ a : Option ℚ, optLE a a := by
  intro a
  cases a <;> simp [optLE]

lemma optLE_trans : ∀ a b c : Option ℚ, optLE a b → optLE b c → optLE a c := by
  intro a b c hab hbc
  cases c with
  | none => simp [optLE]
  | some z =>
    cases b with
    | none => exact absurd hbc (by simp [optLE])
    | some y =>
      cases a with
      | none => exact absurd hab (by simp [optLE])
      | some x =>
        simp [optLE] at hab hbc ⊢
        exact le_trans hab hbc

lemma fitStep_le (y : List ℚ) (st : FitState) (c : ℕ × List ℚ × ℚ) :
    optLE (fitStep y st c).l st.l := by
  by_cases h : ltOpt (findThreshold c.2.1 y c.2.2).2 st.l = true
  · have hstep : fitStep y st c =
        ⟨c.1, some (findThreshold c.2.1 y c.2.2).1, some (findThreshold c.2.1 y c.2.2).2,
          c.2.2⟩ := by
      unfold fitStep
      rw [if_pos h]
    rw [hstep]
    cases hl : st.l with
    | none =>
      show optLE (some (findThreshold c.2.1 y c.2.2).2) none
      simp [optLE]
    | some b =>
      rw [hl] at h
      simp only [ltOpt] at h
      have h2 : (findThreshold c.2.1 y c.2.2).2 < b := by
        by_contra hcon
        rw [if_neg hcon] at h
        exact Bool.false_ne_true h
      show optLE (some (findThreshold c.2.1 y c.2.2).2) (some b)
      simp only [optLE]
      exact le_of_lt h2
  · have hstep : fitStep y st c = st := by
      unfold fitStep
      rw [if_neg h]
    rw [hstep]
    exact optLE_refl _

lemma foldl_fitStep_le (y : List ℚ) :
    ∀ (cs : List (ℕ × List ℚ × ℚ)) (st : FitState),
      optLE (List.foldl (fitStep y) st cs).l st.l := by
  intro cs
  induction cs with
  | nil => intro st; exact optLE_refl _
  | cons c rest ih =>
    intro st
    rw [List.foldl_cons]
    exact optLE_trans _ _ _ (ih (fitStep y st c)) (fitStep_le y st c)

lemma fitStep_le_cand (y : List ℚ) (st : FitState) (c : ℕ × List ℚ × ℚ) :
    optLE (fitStep y st c).l (some (findThreshold c.2.1 y c.2.2).2) := by
  by_cases h : ltOpt (findThreshold c.2.1 y c.2.2).2 st.l = true
  · have hstep : fitStep y st c =
        ⟨c.1, some (findThreshold c.2.1 y c.2.2).1, some (findThreshold c.2.1 y c.2.2).2,
          c.2.2⟩ := by
      unfold fitStep
      rw [if_pos h]
    rw [hstep]
    show optLE (some (findThreshold c.2.1 y c.2.2).2) (some (findThreshold c.2.1 y c.2.2).2)
    exact optLE_refl _
  · have hstep : fitStep y st c = st := by
      unfold fitStep
      rw [if_neg h]
    rw [hstep]
    cases hl : st.l with
    | none =>
      exfalso
      apply h
      rw [hl]
      rfl
    | some b =>
      have h2 : ¬((findThreshold c.2.1 y c.2.2).2 < b) := by
        intro hcon
        apply h
        rw [hl]
        simp [ltOpt, hcon]
      show optLE (some b) (some (findThreshold c.2.1 y c.2.2).2)
      simp only [optLE]
      linarith [not_lt.mp h2]

lemma foldl_fitStep_le_cand (y : List ℚ) :
    ∀ (cs : List (ℕ × List ℚ × ℚ)) (st : FitState) (c : ℕ × List ℚ × ℚ), c ∈ cs →
      optLE (List.foldl (fitStep y) st cs).l (some (findThreshold c.2.1 y c.2.2).2) := by
  intro cs
  induction cs with
  | nil => intro st c h; simp at h
  | cons d rest ih =>
    intro st c h
    rw [List.foldl_cons]
    rcases List.mem_cons.mp h with h | h
    · subst h
      exact optLE_trans _ _ _ (foldl_fitStep_le y rest (fitStep y st c)) (fitStep_le_cand y st c)
    · exact ih (fitStep y st d) c h

lemma fitStep_StIs (y : List ℚ) (st : FitState) (c c0 : ℕ × List ℚ × ℚ)
    (h : StIs y st c0) : StIs y (fitStep y st c) c0 ∨ StIs y (fitStep y st c) c := by
  unfold fitStep
  split_ifs with hc
  · right
    exact ⟨rfl, rfl, rfl, rfl⟩
  · left
    exact h

lemma foldl_StIs (y : List ℚ) :
    ∀ (cs : List (ℕ × List ℚ × ℚ)) (st : FitState) (D : List (ℕ × List ℚ × ℚ)),
      (∃ c0 ∈ D, StIs y st c0) → (∀ c ∈ cs, c ∈ D) →
      ∃ c0 ∈ D, StIs y (List.foldl (fitStep y) st cs) c0 := by
  intro cs
  induction cs with
  | nil => intro st D h _; simpa using h
  | cons c rest ih =>
    intro st D h hsub
    rw [List.foldl_cons]
    apply ih (fitStep y st c) D
    · obtain ⟨c0, hc0D, hc0⟩ := h
      rcases fitStep_StIs y st c c0 hc0 with h' | h'
      · exact ⟨c0, hc0D, h'⟩
      · exact ⟨c, hsub c (List.mem_cons_self c rest), h'⟩
    · intro d hd
      exact hsub d (List.mem_cons_of_mem c hd)

lemma fitStep_init (y : List ℚ) (c : ℕ × List ℚ × ℚ) :
    fitStep y ⟨0, none, none, 1⟩ c =
      ⟨c.1, some (findThreshold c.2.1 y c.2.2).1, some (findThreshold c.2.1 y c.2.2).2,
        c.2.2⟩ := by
  simp [fitStep, ltOpt]

lemma mem_allCands :
    ∀ (cols : List (List ℚ)) (i0 i : ℕ) (s : ℚ), i < cols.length → (s = -1 ∨ s = 1) →
      (i0 + i, cols.getD i [], s) ∈ allCands i0 cols := by
  intro cols
  induction cols with
  | nil => intro i0 i s h _; simp at h
  | cons c rest ih =>
    intro i0 i s h hs
    cases i with
    | zero =>
      rcases hs with hs | hs <;> subst hs <;> simp [allCands]
    | succ i =>
      have h' : i < rest.length := by simpa using h
      simp only [allCands]
      apply List.mem_cons_of_mem
      apply List.mem_cons_of_mem
      have harith : i0 + (i + 1) = (i0 + 1) + i := by omega
      rw [harith, List.getD_cons_succ]
      exact ih (i0 + 1) i s h' hs

lemma allCands_spec :
    ∀ (cols : List (List ℚ)) (i0 : ℕ) (c : ℕ × List ℚ × ℚ), c ∈ allCands i0 cols →
      ∃ i, i < cols.length ∧ c.1 = i0 + i ∧ c.2.1 = cols.getD i [] ∧
        (c.2.2 = -1 ∨ c.2.2 = 1) := by
  intro cols
  induction cols with
  | nil => intro i0 c h; simp [allCands] at h
  | cons d rest ih =>
    intro i0 c h
    simp only [allCands, List.mem_cons] at h
    rcases h with h | h | h
    · subst h
      exact ⟨0, by simp, by simp, by simp, Or.inl rfl⟩
    · subst h
      exact ⟨0, by simp, by simp, by simp, Or.inr rfl⟩
    · obtain ⟨i, hi, h1, h2, h3⟩ := ih (i0 + 1) c h
      refine ⟨i + 1, by simpa using Nat.succ_lt_succ hi, by omega, ?_, h3⟩
      rw [List.getD_cons_succ]
      exact h2

/-- C3: after fit on a nonempty column list, the first evaluated candidate
always replaces the initialization (0, None, inf, 1); the stored state
records a really evaluated (feature, threshold, sign) triple (so threshold_
is never None), and its error is <= the _find_threshold error of every
feature with sign fixed to -1 and with sign fixed to +1. -/
theorem fit_global_min (cols : List (List ℚ)) (y : List ℚ) (hne : cols ≠ []) :
    (∀ c : ℕ × List ℚ × ℚ, fitStep y ⟨0, none, none, 1⟩ c =
      ⟨c.1, some (findThreshold c.2.1 y c.2.2).1, some (findThreshold c.2.1 y c.2.2).2,
        c.2.2⟩) ∧
    (fitStump cols y).f < cols.length ∧
    ((fitStump cols y).s = -1 ∨ (fitStump cols y).s = 1) ∧
    (fitStump cols y).t =
      some (findThreshold (cols.getD (fitStump cols y).f []) y (fitStump cols y).s).1 ∧
    (fitStump cols y).l =
      some (findThreshold (cols.getD (fitStump cols y).f []) y (fitStump cols y).s).2 ∧
    (∀ i, i < cols.length → ∀ s : ℚ, s = -1 ∨ s = 1 →
      (findThreshold (cols.getD (fitStump cols y).f []) y (fitStump cols y).s).2 ≤
        (findThreshold (cols.getD i []) y s).2) := by
  obtain ⟨c0, hc0mem, hst⟩ : ∃ c0 ∈ allCands 0 cols, StIs y (fitStump cols y) c0 := by
    cases cols with
    | nil => exact absurd rfl hne
    | cons d rest =>
      unfold fitStump
      simp only [allCands]
      rw [List.foldl_cons]
      apply foldl_StIs
      · refine ⟨(0, d, -1), by simp [allCands], ?_⟩
        rw [fitStep_init]
        exact ⟨rfl, rfl, rfl, rfl⟩
      · intro c hc
        exact List.mem_cons_of_mem _ hc
  obtain ⟨i0, hi0, hf, hcol, hs0⟩ := allCands_spec cols 0 c0 hc0mem
  have hffeq : (fitStump cols y).f = i0 := by
    rw [hst.1, hf]
    omega
  have hcols : cols.getD (fitStump cols y).f [] = c0.2.1 := by
    rw [hffeq, ← hcol]
  have hss : (fitStump cols y).s = c0.2.2 := hst.2.1
  refine ⟨fun c => fitStep_init y c, ?_, ?_, ?_, ?_, ?_⟩
  · rw [hffeq]
    exact hi0
  · rw [hss]
    exact hs0
  · rw [hss, hcols]
    exact hst.2.2.1
  · rw [hss, hcols]
    exact hst.2.2.2
  · intro i hi s hs
    have hmem := mem_allCands cols 0 i s hi hs
    have hle : optLE (fitStump cols y).l
        (some (findThreshold (cols.getD i []) y s).2) :=
      foldl_fitStep_le_cand y (allCands 0 cols) ⟨0, none, none, 1⟩ (0 + i, cols.getD i [], s)
        hmem
    rw [hst.2.2.2] at hle
    simp only [optLE] at hle
    rw [hss, hcols]
    exact hle

theorem fit_global_min_witness :
    ([[1, 2, 3, 4]] : List (List ℚ)) ≠ [] ∧
      ((∀ c : ℕ × List ℚ × ℚ, fitStep [-1, -1, 1, 1] ⟨0, none, none, 1⟩ c =
        ⟨c.1, some (findThreshold c.2.1 [-1, -1, 1, 1] c.2.2).1,
          some (findThreshold c.2.1 [-1, -1, 1, 1] c.2.2).2, c.2.2⟩) ∧
      (fitStump [[1, 2, 3, 4]] [-1, -1, 1, 1]).f < ([[1, 2, 3, 4]] : List (List ℚ)).length ∧
      ((fitStump [[1, 2, 3, 4]] [-1, -1, 1, 1]).s = -1 ∨
        (fitStump [[1, 2, 3, 4]] [-1, -1, 1, 1]).s = 1) ∧
      (fitStump [[1, 2, 3, 4]] [-1, -1, 1, 1]).t =
        some (findThreshold (([[1, 2, 3, 4]] : List (List ℚ)).getD
          (fitStump [[1, 2, 3, 4]] [-1, -1, 1, 1]).f []) [-1, -1, 1, 1]
          (fitStump [[1, 2, 3, 4]] [-1, -1, 1, 1]).s).1 ∧
      (fitStump [[1, 2, 3, 4]] [-1, -1, 1, 1]).l =
        some (findThreshold (([[1, 2, 3, 4]] : List (List ℚ)).getD
          (fitStump [[1, 2, 3, 4]] [-1, -1, 1, 1]).f []) [-1, -1, 1, 1]
          (fitStump [[1, 2, 3, 4]] [-1, -1, 1, 1]).s).2 ∧
      (∀ i, i < ([[1, 2, 3, 4]] : List (List ℚ)).length → ∀ s : ℚ, s = -1 ∨ s = 1 →
        (findThreshold (([[1, 2, 3, 4]] : List (List ℚ)).getD
          (fitStump [[1, 2, 3, 4]] [-1, -1, 1, 1]).f []) [-1, -1, 1, 1]
          (fitStump [[1, 2, 3, 4]] [-1, -1, 1, 1]).s).2 ≤
          (findThreshold (([[1, 2, 3, 4]] : List (List ℚ)).getD i []) [-1, -1, 1, 1] s).2)) :=
  ⟨by simp, fit_global_min [[1, 2, 3, 4]] [-1, -1, 1, 1] (by simp)⟩

/-- C4: on a 2-D input with a valid column at the feature index, predict
succeeds and row i of the output is sign when X[i, j] >= threshold and
-sign otherwise (thrGe is the numpy >= against a possibly infinite
threshold). -/
theorem predict_rule (rows : List (List ℚ)) (j : ℕ) (thr : Thr) (s : ℚ)
    (hcol : ∀ r ∈ rows, j < r.length) :
    predictN (NDArray.two rows) j thr s = some (predictStump rows j thr s) ∧
    ∀ i, i < rows.length →
      (predictStump rows j thr s).getD i 0 =
        if thrGe ((rows.getD i []).getD j 0) thr then s else -s := by
  constructor
  · have hci : colIndex (NDArray.two rows) j = some (rows.map (fun r => r.getD j 0)) := by
      simp only [colIndex]
      rw [if_pos hcol]
    unfold predictN
    rw [hci]
    simp [predictStump, List.map_map, Function.comp]
  · intro i hi
    unfold predictStump
    rw [getD_map (fun r => if thrGe (r.getD j 0) thr then s else -s) [] 0 rows i hi]

theorem predict_rule_witness :
    (∀ r ∈ ([[1], [3]] : List (List ℚ)), 0 < r.length) ∧
      (predictN (NDArray.two [[1], [3]]) 0 (Thr.val 2) 1 =
        some (predictStump [[1], [3]] 0 (Thr.val 2) 1) ∧
      ∀ i, i < ([[1], [3]] : List (List ℚ)).length →
        (predictStump [[1], [3]] 0 (Thr.val 2) 1).getD i 0 =
          if thrGe ((([[1], [3]] : List (List ℚ)).getD i []).getD 0 0) (Thr.val 2) then 1
          else -1) := by
  have hcol : ∀ r ∈ ([[1], [3]] : List (List ℚ)), 0 < r.length := by
    intro r hr
    rcases List.mem_cons.mp hr with h | h
    · subst h; simp
    · rcases List.mem_cons.mp h with h | h
      · subst h; simp
      · simp at h
  exact ⟨hcol, predict_rule [[1], [3]] 0 (Thr.val 2) 1 hcol⟩

/-- C7: fitting on the 1-D perfectly separable data values [1,2,3,4] with
labels [-1,-1,1,1] yields feature 0, threshold 3, error 0 and sign +1. -/
theorem fit_separable_example :
    fitN (NDArray.one [1, 2, 3, 4]) [-1, -1, 1, 1] = ⟨0, some (Thr.val 3), some 0, 1⟩ := by
  show fitStump [[1, 2, 3, 4]] [-1, -1, 1, 1] = ⟨0, some (Thr.val 3), some 0, 1⟩
  norm_num [fitStump, allCands, fitStep, ltOpt, findThreshold, stIndex, stAdj, stLosses,
    stLoss0, stMaxi, stValid, stNorm, stRawLabels, stVals, sortPairs, List.insertionSort,
    List.orderedInsert, validFlags, validAux, lossList, sumAbs, listMin, listMax,
    argminIdx, abs_of_nonneg, abs_of_nonpos]

/-- C8: the computation is deterministic: two runs of _find_threshold and
of fit on identical inputs return identical results. -/
theorem deterministic (v1 v2 l1 l2 y1 y2 : List ℚ) (s1 s2 : ℚ)
    (cols1 cols2 : List (List ℚ)) (hv : v1 = v2) (hl : l1 = l2) (hs : s1 = s2)
    (hc : cols1 = cols2) (hy : y1 = y2) :
    findThreshold v1 l1 s1 = findThreshold v2 l2 s2 ∧ fitStump cols1 y1 = fitStump cols2 y2 := by
  subst hv hl hs hc hy
  exact ⟨rfl, rfl⟩

theorem deterministic_witness :
    ([1] : List ℚ) = [1] ∧
      (findThreshold [1] [1] 1 = findThreshold [1] [1] 1 ∧
        fitStump [[1]] [1] = fitStump [[1]] [1]) :=
  ⟨rfl, deterministic [1] [1] [1] [1] [1] [1] 1 1 [[1]] [[1]] rfl rfl rfl rfl rfl⟩

/-- C9: whenever _find_threshold returns a finite threshold, it is one of
the entries of the input values array (only -infinity and +infinity are
ever returned otherwise). -/
theorem finite_threshold_mem (values labels : List ℚ) (sign : ℚ)
    (hlen : values.length = labels.length) (hne : labels ≠ [])
    (_hS : 0 < sumAbs labels) (hsg : sign = 1 ∨ sign = -1) :
    ∀ t : ℚ, (findThreshold values labels sign).1 = Thr.val t → t ∈ values := by
  intro t ht
  have hn : 0 < (stNorm values labels).length := stNorm_length_pos values labels hlen hne
  have hidx := stIndex_lt values labels sign hn
  have hmem : ∀ k, k < (stNorm values labels).length →
      (stVals values labels).getD k 0 ∈ values := by
    intro k hk
    have hk2 : k < (stVals values labels).length := by
      rw [length_stVals]
      rw [length_stNorm] at hk
      exact hk
    have hmem1 : (stVals values labels).getD k 0 ∈ stVals values labels := getD_mem _ k hk2
    have hperm : (stVals values labels).Perm ((values.zip labels).map Prod.fst) :=
      (sortPairs_perm values labels).map Prod.fst
    have hmem2 := hperm.mem_iff.mp hmem1
    rw [List.map_fst_zip values labels (le_of_eq hlen)] at hmem2
    exact hmem2
  by_cases h1 : stIndex values labels sign = 0
  · have hft : (findThreshold values labels sign).1 = Thr.negInf := by
      simp [findThreshold, h1]
    rw [hft] at ht
    exact Thr.noConfusion ht
  · by_cases h2 : stIndex values labels sign = (stNorm values labels).length - 1
    · rcases hsg with hsgn | hsgn <;> subst hsgn
      · by_cases h3 : 0 < (stNorm values labels).getD (stIndex values labels 1) 0
        · have h3n := h3
          rw [List.getD_eq_getElem?_getD] at h3n
          have hft : (findThreshold values labels 1).1 =
              Thr.val ((stVals values labels).getD (stIndex values labels 1) 0) := by
            simp [findThreshold, h1, eq_true h2, h3n]
          rw [hft] at ht
          have : (stVals values labels).getD (stIndex values labels 1) 0 = t :=
            Thr.val.inj ht
          rw [← this]
          exact hmem _ hidx
        · have h3n := h3
          rw [List.getD_eq_getElem?_getD] at h3n
          have hft : (findThreshold values labels 1).1 = Thr.posInf := by
            simp [findThreshold, h1, eq_true h2, h3n]
          rw [hft] at ht
          exact Thr.noConfusion ht
      · have hm1 : ¬((-1 : ℚ) = 1) := by norm_num
        by_cases h3 : 0 < (stNorm values labels).getD (stIndex values labels (-1)) 0
        · have h3n := h3
          rw [List.getD_eq_getElem?_getD] at h3n
          have hft : (findThreshold values labels (-1)).1 = Thr.posInf := by
            simp [findThreshold, h1, eq_true h2, hm1, h3n]
          rw [hft] at ht
          exact Thr.noConfusion ht
        · have h3n := h3
          rw [List.getD_eq_getElem?_getD] at h3n
          have hft : (findThreshold values labels (-1)).1 =
              Thr.val ((stVals values labels).getD (stIndex values labels (-1)) 0) := by
            simp [findThreshold, h1, eq_true h2, hm1, h3n]
          rw [hft] at ht
          have : (stVals values labels).getD (stIndex values labels (-1)) 0 = t :=
            Thr.val.inj ht
          rw [← this]
          exact hmem _ hidx
    · have hft : (findThreshold values labels sign).1 =
          Thr.val ((stVals values labels).getD (stIndex values labels sign) 0) := by
        simp [findThreshold, h1, h2]
      rw [hft] at ht
      have : (stVals values labels).getD (stIndex values labels sign) 0 = t :=
        Thr.val.inj ht
      rw [← this]
      exact hmem _ hidx

theorem finite_threshold_mem_witness :
    ([1, 2, 3, 4] : List ℚ).length = ([-1, -1, 1, 1] : List ℚ).length ∧
      ([-1, -1, 1, 1] : List ℚ) ≠ [] ∧ 0 < sumAbs [-1, -1, 1, 1] ∧
      ((1 : ℚ) = 1 ∨ (1 : ℚ) = -1) ∧
      (∀ t : ℚ, (findThreshold [1, 2, 3, 4] [-1, -1, 1, 1] 1).1 = Thr.val t →
        t ∈ ([1, 2, 3, 4] : List ℚ)) :=
  ⟨rfl, by simp, by norm_num [sumAbs], Or.inl rfl,
    finite_threshold_mem [1, 2, 3, 4] [-1, -1, 1, 1] 1 rfl (by simp)
      (by norm_num [sumAbs]) (Or.inl rfl)⟩

/-- C10: predict indexes X[:, j], which raises on 1-D input, so predict on
a 1-D array has no defined result, while _fit does accept a 1-D feature
vector, treating it as one column with feature index 0. -/
theorem predict_1d_undefined (v : List ℚ) (j : ℕ) (thr : Thr) (s : ℚ) (y : List ℚ) :
    colIndex (NDArray.one v) j = none ∧ predictN (NDArray.one v) j thr s = none ∧
      fitN (NDArray.one v) y = fitStump [v] y :=
  ⟨rfl, rfl, rfl⟩

/-- C1 fails on the code: on values [1,2,3,4], labels [-2,4,-3,-3], sign +1,
_find_threshold returns (2, 1/2), yet the threshold +infinity achieves
weighted error 1/3, which is also the minimum over all n+1 candidate
splits; the returned error is not the minimum and the sweep misses the
+infinity candidate whenever the argmin is not the last index. -/
theorem find_threshold_misses_min :
    findThreshold [1, 2, 3, 4] [-2, 4, -3, -3] 1 = (Thr.val 2, 1/2) ∧
    threshErr [1, 2, 3, 4] [-2, 4, -3, -3] 1 Thr.posInf = 1/3 ∧
    specMinCandErr [1, 2, 3, 4] [-2, 4, -3, -3] 1 = 1/3 ∧
    threshErr [1, 2, 3, 4] [-2, 4, -3, -3] 1 Thr.posInf <
      (findThreshold [1, 2, 3, 4] [-2, 4, -3, -3] 1).2 := by
  have h1 : findThreshold [1, 2, 3, 4] [-2, 4, -3, -3] 1 = (Thr.val 2, 1/2) := by
    norm_num [findThreshold, stIndex, stAdj, stLosses, stLoss0, stMaxi, stValid, stNorm,
      stRawLabels, stVals, sortPairs, List.insertionSort, List.orderedInsert, validFlags,
      validAux, lossList, sumAbs, listMin, listMax, argminIdx, abs_of_nonneg, abs_of_nonpos]
  have h2 : threshErr [1, 2, 3, 4] [-2, 4, -3, -3] 1 Thr.posInf = 1/3 := by
    norm_num [threshErr, thrGe, sumAbs]
  have h3 : specMinCandErr [1, 2, 3, 4] [-2, 4, -3, -3] 1 = 1/3 := by
    norm_num [specMinCandErr, specCandErrs, cutError, sumNeg, negPart, posPart, stNorm,
      stRawLabels, stVals, sortPairs, List.insertionSort, List.orderedInsert, sumAbs,
      listMin, List.range_succ, abs_of_nonneg, abs_of_nonpos]
  refine ⟨h1, h2, h3, ?_⟩
  rw [h1, h2]
  norm_num

end DecisionStump
